import Mathlib

/-
Verification of the burda::ct::hash_map header (constexpr-hash-map).

The container is a compile-time hash map backed by a std::array of N
key-value pairs.  We model the backing array as a list whose length is
exactly N (the std::array invariant), iterators as indices into that list
(std::cbegin(data) is index 0, std::cend(data) is index data.length), and
the recursive template search over the index range [L, R) as well-founded
recursion on R - L.  Null-terminated C strings are modelled as the list of
characters that precede the terminator; dereferencing the pointer at the
end of such a string yields the terminator character.
-/

set_option autoImplicit false
set_option linter.unusedVariables false

namespace Burda

/-- Model of the class hash_map of N key-value pairs: the backing
std::array of pairs, a list whose length is exactly N. -/
structure hash_map (N : Nat) (K V : Type) where
  data : List (K × V)
  size_inv : data.length = N

namespace hash_map

variable {N : Nat} {K V : Type}

/-- Model of the variadic constructor. The C++ constructor statically
rejects N = 0 and an element count different from N; rejection at
compile time is modelled by returning none. When it succeeds the backing
array holds exactly the supplied elements in order. -/
def construct (N : Nat) (elements : List (K × V)) :
    Option (hash_map N K V) :=
  if h : 0 < N ∧ elements.length = N then some ⟨elements, h.2⟩ else none

/-- Iterator std cbegin of the backing array: index 0.  The member
begin() simply returns cbegin(). -/
def cbegin (m : hash_map N K V) : Nat := 0

/-- Iterator std cend of the backing array: the one-past-the-end index
data.length.  The member end() simply returns cend(). -/
def cend (m : hash_map N K V) : Nat := m.data.length

/-- Model of the recursive member search over the template index range
from L to R: if L < R, compare the key stored at index L and either
return the iterator at L or recurse at L + 1; otherwise return the end
iterator. The C++ indexing data[L] is in bounds in every instantiation
(L < R <= N); getD with the default element models the access. -/
def search [BEq K] [Inhabited K] [Inhabited V]
    (m : hash_map N K V) (key : K) (L R : Nat) : Nat :=
  if L < R then
    if (m.data.getD L default).1 == key then L
    else m.search key (L + 1) R
  else m.cend
termination_by R - L

/-- Model of the member find: search over the full index range from 0 to N. -/
def find [BEq K] [Inhabited K] [Inhabited V]
    (m : hash_map N K V) (key : K) : Nat :=
  m.search key 0 N

/-- Model of the member at: find the key, and either return true paired
with the second component of the found entry, or false paired with a
default-constructed value. No exception is thrown in either case. -/
def at' [BEq K] [Inhabited K] [Inhabited V]
    (m : hash_map N K V) (key : K) : Bool × V :=
  let it := m.find key
  if it ≠ m.cend then (true, (m.data.getD it default).2)
  else (false, default)

/-- Model of the member operator[]: dereference the iterator returned by
find with no bounds checking; dereferencing the end iterator is undefined
behaviour in C++, modelled by the default element of getD. -/
def opIndex [BEq K] [Inhabited K] [Inhabited V]
    (m : hash_map N K V) (key : K) : V :=
  (m.data.getD (m.find key) default).2

/-- Model of the member contains: whether the search over the full range
returns an iterator different from the end iterator. -/
def contains [BEq K] [Inhabited K] [Inhabited V]
    (m : hash_map N K V) (key : K) : Bool :=
  m.search key 0 N != m.cend

/-- Model of the member size: the size of the backing array. -/
def size (m : hash_map N K V) : Nat := m.data.length

/-- Model of the member empty: returns false unconditionally. -/
def empty (m : hash_map N K V) : Bool := false

/-- Iteration from iterator position i to the end iterator, collecting the
entry at each position; models the range-based for loop that advances a
const iterator from begin() while it differs from end(). Starting from
begin() the iterator never exceeds cend(), so the inequality test of the
loop coincides with the strict comparison used here. -/
def iterFrom [Inhabited K] [Inhabited V]
    (m : hash_map N K V) (i : Nat) : List (K × V) :=
  if i < m.cend then (m.data.getD i default) :: m.iterFrom (i + 1)
  else []
termination_by m.cend - i

/-- Full iteration of the container from begin() to end(). -/
def toList [Inhabited K] [Inhabited V] (m : hash_map N K V) : List (K × V) :=
  m.iterFrom m.cbegin

/-- Number of key comparisons made by search over the index range from L
to R: one comparison per examined index, stopping at the first match. -/
def searchCount [BEq K] [Inhabited K] [Inhabited V]
    (m : hash_map N K V) (key : K) (L R : Nat) : Nat :=
  if L < R then
    if (m.data.getD L default).1 == key then 1
    else 1 + m.searchCount key (L + 1) R
  else 0
termination_by R - L

end hash_map

/-- Dereference of a C string pointer: the head character, or the null
terminator when the pointer stands at the end of the string. -/
def cstrHead : List Char → Char
  | [] => Char.ofNat 0
  | c :: _ => c

/-- Model of the member equal overloaded for char const pointers: the
characters under both pointers are equal, and either that character is the
terminator or the tails are equal in turn. A C string is the list of its
characters before the terminator, so the empty list stands for a pointer
at the terminator. -/
def equalCStr : List Char → List Char → Bool
  | [], b => cstrHead b == Char.ofNat 0
  | c :: cs, b => (c == cstrHead b) && (c == Char.ofNat 0 || equalCStr cs b.tail)

/-- Number of character comparisons performed by equalCStr: one for each
recursive step taken plus one for the step that stops. -/
def equalCStrSteps : List Char → List Char → Nat
  | [], _ => 1
  | c :: cs, b =>
    if c == cstrHead b && !(c == Char.ofNat 0) then 1 + equalCStrSteps cs b.tail
    else 1

/-- A well-formed C string content: no character is the terminator. -/
def cstrWF (s : List Char) : Prop := Char.ofNat 0 ∉ s

instance (s : List Char) : Decidable (cstrWF s) := by
  unfold cstrWF; infer_instance

/-- Concrete container used to instantiate theorems: two pairs with
natural-number keys. -/
def exampleMap : hash_map 2 Nat Nat :=
  ⟨[(1, 10), (2, 20)], rfl⟩

/-- Concrete container with a duplicated key. -/
def dupMap : hash_map 3 Nat Nat :=
  ⟨[(1, 10), (1, 20), (2, 30)], rfl⟩

/-- Concrete C string content used to instantiate theorems. -/
def key1str : List Char := ['k', 'e', 'y', '1']

namespace hash_map

variable {N : Nat} {K V : Type}

theorem cend_eq (m : hash_map N K V) : m.cend = N := m.size_inv

/-- Characterization of search over the range from L to R: either it
returns the end iterator and no index of the range matches, or it returns
an in-range index that matches while every smaller index of the range does
not. -/
theorem search_spec [BEq K] [Inhabited K] [Inhabited V]
    (m : hash_map N K V) (key : K) :
    ∀ d L R, R - L = d →
      (m.search key L R = m.cend ∧
        ∀ j, L ≤ j → j < R → ((m.data.getD j default).1 == key) = false) ∨
      (L ≤ m.search key L R ∧ m.search key L R < R ∧
        ((m.data.getD (m.search key L R) default).1 == key) = true ∧
        ∀ j, L ≤ j → j < m.search key L R →
          ((m.data.getD j default).1 == key) = false) := by
  intro d
  induction d with
  | zero =>
    intro L R h
    have hLR : ¬ L < R := by omega
    left
    rw [search, if_neg hLR]
    exact ⟨rfl, fun j hLj hjR => absurd (by omega) hLR⟩
  | succ d ih =>
    intro L R h
    by_cases hLR : L < R
    · by_cases hhd : ((m.data.getD L default).1 == key) = true
      · right
        rw [search, if_pos hLR, if_pos hhd]
        exact ⟨le_refl L, hLR, hhd, fun j hLj hjL => absurd hjL (Nat.not_lt.mpr hLj)⟩
      · have hstep : m.search key L R = m.search key (L + 1) R := by
          rw [search, if_pos hLR, if_neg hhd]
        rcases ih (L + 1) R (by omega) with ⟨hmiss, hall⟩ | ⟨h1, h2, h3, h4⟩
        · left
          refine ⟨hstep ▸ hmiss, fun j hLj hjR => ?_⟩
          rcases Nat.eq_or_lt_of_le hLj with hEq | hLt
          · simpa [← hEq] using (Bool.eq_false_iff.mpr hhd)
          · exact hall j hLt hjR
        · right
          rw [hstep]
          refine ⟨by omega, h2, h3, fun j hLj hjr => ?_⟩
          rcases Nat.eq_or_lt_of_le hLj with hEq | hLt
          · simpa [← hEq] using (Bool.eq_false_iff.mpr hhd)
          · exact h4 j hLt hjr
    · left
      rw [search, if_neg hLR]
      exact ⟨rfl, fun j hLj hjR => absurd (by omega) hLR⟩

/-- Case analysis for find: it either misses, returning the end iterator
with no index of the array matching, or hits the first matching index. -/
theorem find_cases [BEq K] [Inhabited K] [Inhabited V]
    (m : hash_map N K V) (key : K) :
    (m.find key = N ∧ ∀ j, j < N → ((m.data.getD j default).1 == key) = false) ∨
    (m.find key < N ∧ ((m.data.getD (m.find key) default).1 == key) = true ∧
      ∀ j, j < m.find key → ((m.data.getD j default).1 == key) = false) := by
  rcases m.search_spec key N 0 N (by omega) with ⟨hmiss, hall⟩ | ⟨h1, h2, h3, h4⟩
  · left
    exact ⟨by rw [find, hmiss, cend_eq], fun j hj => hall j (Nat.zero_le j) hj⟩
  · right
    exact ⟨h2, h3, fun j hj => h4 j (Nat.zero_le j) hj⟩

/-- A first matching index is exactly what find returns. -/
theorem find_eq_of_first [BEq K] [Inhabited K] [Inhabited V]
    (m : hash_map N K V) (key : K) (i : Nat) (hi : i < N)
    (hmatch : ((m.data.getD i default).1 == key) = true)
    (hfirst : ∀ j, j < i → ((m.data.getD j default).1 == key) = false) :
    m.find key = i := by
  rcases m.find_cases key with ⟨hmiss, hall⟩ | ⟨h1, h2, h3⟩
  · have hc := hall i hi
    rw [hmatch] at hc
    exact Bool.noConfusion hc
  · rcases Nat.lt_trichotomy (m.find key) i with hlt | hEq | hgt
    · have hc := hfirst _ hlt
      rw [h2] at hc
      exact Bool.noConfusion hc
    · exact hEq
    · have hc := h3 i hgt
      rw [hmatch] at hc
      exact Bool.noConfusion hc

theorem contains_iff_find [BEq K] [Inhabited K] [Inhabited V]
    (m : hash_map N K V) (key : K) :
    m.contains key = true ↔ m.find key ≠ m.cend := by
  rw [contains, find, bne_iff_ne]

theorem find_le [BEq K] [Inhabited K] [Inhabited V]
    (m : hash_map N K V) (key : K) : m.find key ≤ N := by
  rcases m.find_cases key with ⟨hmiss, _⟩ | ⟨h1, _, _⟩
  · exact le_of_eq hmiss
  · exact le_of_lt h1

theorem data_eq_ext (m m' : hash_map N K V) (h : m.data = m'.data) : m = m' := by
  cases m
  cases m'
  simpa using h

/-- Iteration from position i yields the suffix of the backing array that
starts at i. -/
theorem iterFrom_eq_drop [Inhabited K] [Inhabited V]
    (m : hash_map N K V) :
    ∀ d i, m.cend - i = d → m.iterFrom i = m.data.drop i := by
  intro d
  induction d with
  | zero =>
    intro i h
    have hge : ¬ i < m.cend := by omega
    rw [iterFrom, if_neg hge]
    exact (List.drop_eq_nil_of_le (by simpa [cend] using Nat.not_lt.mp hge)).symm
  | succ d ih =>
    intro i h
    have hlt : i < m.cend := by omega
    have hlen : i < m.data.length := by simpa [cend] using hlt
    rw [iterFrom, if_pos hlt, ih (i + 1) (by omega),
      List.getD_eq_getElem m.data default hlen]
    exact (List.drop_eq_getElem_cons hlen).symm

/-- The comparison count of search is bounded by the width of the range. -/
theorem searchCount_le_width [BEq K] [Inhabited K] [Inhabited V]
    (m : hash_map N K V) (key : K) :
    ∀ d L R, R - L = d → m.searchCount key L R ≤ R - L := by
  intro d
  induction d with
  | zero =>
    intro L R h
    have hLR : ¬ L < R := by omega
    rw [searchCount, if_neg hLR]
    exact Nat.zero_le _
  | succ d ih =>
    intro L R h
    have hLR : L < R := by omega
    rw [searchCount, if_pos hLR]
    by_cases hhd : ((m.data.getD L default).1 == key) = true
    · rw [if_pos hhd]
      omega
    · rw [if_neg hhd]
      have := ih (L + 1) R (by omega)
      omega

end hash_map

/-- The string comparison of the source decides equality of well-formed
C string contents. -/
theorem equalCStr_iff_eq :
    ∀ a b : List Char, cstrWF a → cstrWF b → (equalCStr a b = true ↔ a = b) := by
  intro a
  induction a with
  | nil =>
    intro b ha hb
    cases b with
    | nil => simp [equalCStr, cstrHead]
    | cons d ds =>
      have hd : d ≠ Char.ofNat 0 := fun hc => hb (hc ▸ List.mem_cons_self d ds)
      simp [equalCStr, cstrHead]
      exact hd
  | cons c cs ih =>
    intro b ha hb
    have hc : c ≠ Char.ofNat 0 := fun hcc => ha (hcc ▸ List.mem_cons_self c cs)
    cases b with
    | nil => simp [equalCStr, cstrHead, hc]
    | cons d ds =>
      have ha' : cstrWF cs := fun hm => ha (List.mem_cons_of_mem c hm)
      have hb' : cstrWF ds := fun hm => hb (List.mem_cons_of_mem d hm)
      simp [equalCStr, cstrHead, hc, ih ds ha' hb', and_comm]

/-- The character comparison count of equalCStr is bounded by the length
of the left string plus one. -/
theorem equalCStrSteps_le :
    ∀ a b : List Char, equalCStrSteps a b ≤ a.length + 1 := by
  intro a
  induction a with
  | nil => intro b; simp [equalCStrSteps]
  | cons c cs ih =>
    intro b
    rw [equalCStrSteps]
    by_cases hc : (c == cstrHead b && !(c == Char.ofNat 0)) = true
    · rw [if_pos hc]
      have h1 := ih b.tail
      simp only [List.length_cons]
      omega
    · rw [if_neg hc]
      simp

open hash_map

/-- C1: for every container and every key, find performs a left-to-right
scan of the stored sequence and returns the position of the first entry
whose key is equal to the key under the container equality predicate, or
the end sentinel when no entry key is equal to it. -/
theorem C1_find_first_match {N : Nat} {K V : Type} [BEq K] [Inhabited K] [Inhabited V]
    (m : hash_map N K V) (key : K) :
    (m.find key = m.cend ∧
      ∀ j, j < N → ((m.data.getD j default).1 == key) = false) ∨
    (m.find key < N ∧ ((m.data.getD (m.find key) default).1 == key) = true ∧
      ∀ j, j < m.find key → ((m.data.getD j default).1 == key) = false) := by
  rcases m.find_cases key with ⟨h1, h2⟩ | h
  · exact Or.inl ⟨by rw [h1, cend_eq], h2⟩
  · exact Or.inr h

/-- C2: at returns (true, v) with v the value of the first entry whose key
equals the given key when such an entry exists, and (false, default) when
none does; the model is a total function, so no fault is signalled in
either case. -/
theorem C2_at_checked_lookup {N : Nat} {K V : Type} [BEq K] [Inhabited K] [Inhabited V]
    (m : hash_map N K V) (key : K) :
    ((∃ j, j < N ∧ ((m.data.getD j default).1 == key) = true) →
      ∃ i, i < N ∧ ((m.data.getD i default).1 == key) = true ∧
        (∀ j, j < i → ((m.data.getD j default).1 == key) = false) ∧
        m.at' key = (true, (m.data.getD i default).2)) ∧
    ((∀ j, j < N → ((m.data.getD j default).1 == key) = false) →
      m.at' key = (false, default)) := by
  constructor
  · rintro ⟨j, hj, hmatch⟩
    rcases m.find_cases key with ⟨h1, h2⟩ | ⟨h1, h2, h3⟩
    · have hc := h2 j hj
      rw [hmatch] at hc
      exact Bool.noConfusion hc
    · refine ⟨m.find key, h1, h2, h3, ?_⟩
      have hne : m.find key ≠ m.cend := by rw [cend_eq]; omega
      simp [at', hne]
  · intro hall
    rcases m.find_cases key with ⟨h1, h2⟩ | ⟨h1, h2, h3⟩
    · have heq : m.find key = m.cend := by rw [cend_eq]; exact h1
      simp [at', heq]
    · have hc := hall _ h1
      rw [h2] at hc
      exact Bool.noConfusion hc

/-- C3: contains is true exactly when find returns a position other than
the end sentinel, and it is pure: its value depends only on the contents
of the container and the key. -/
theorem C3_contains_iff {N : Nat} {K V : Type} [BEq K] [Inhabited K] [Inhabited V]
    (m : hash_map N K V) (key : K) :
    (m.contains key = true ↔ m.find key ≠ m.cend) ∧
    (∀ m' : hash_map N K V, m'.data = m.data → m'.contains key = m.contains key) := by
  refine ⟨m.contains_iff_find key, fun m' h => ?_⟩
  rw [m'.data_eq_ext m h]

/-- C4: the string equality predicate used for char pointer keys returns
true exactly when the character sequences before the terminators are
identical, so lookup depends on string contents only. -/
theorem C4_equal_strings (a b : List Char) (ha : cstrWF a) (hb : cstrWF b) :
    equalCStr a b = true ↔ a = b :=
  equalCStr_iff_eq a b ha hb

/-- C5: construction is rejected exactly when N is zero or the number of
supplied pairs differs from N, and a successful construction stores
exactly the supplied pairs, with no truncation or padding. -/
theorem C5_construct_checks {K V : Type} (Nv : Nat) (el : List (K × V)) :
    (construct Nv el = (none : Option (hash_map Nv K V)) ↔
      Nv = 0 ∨ el.length ≠ Nv) ∧
    (∀ m : hash_map Nv K V, construct Nv el = some m → m.data = el) := by
  constructor
  · rw [construct]
    by_cases h : 0 < Nv ∧ el.length = Nv
    · rw [dif_pos h]
      simp only [reduceCtorEq, false_iff]
      omega
    · rw [dif_neg h]
      simp only [true_iff]
      omega
  · intro m hm
    rw [construct] at hm
    by_cases h : 0 < Nv ∧ el.length = Nv
    · rw [dif_pos h] at hm
      cases hm
      rfl
    · rw [dif_neg h] at hm
      exact Option.noConfusion hm

/-- C6: under the precondition that the key is contained, operator[]
returns the value of the first entry whose key equals the given key, and
the dereference inside it never reaches the end sentinel. -/
theorem C6_opIndex_unchecked {N : Nat} {K V : Type} [BEq K] [Inhabited K] [Inhabited V]
    (m : hash_map N K V) (key : K) (hc : m.contains key = true) :
    m.find key ≠ m.cend ∧
    (∃ i, m.find key = i ∧ i < N ∧
      ((m.data.getD i default).1 == key) = true ∧
      (∀ j, j < i → ((m.data.getD j default).1 == key) = false) ∧
      m.opIndex key = (m.data.getD i default).2) := by
  have hne := (m.contains_iff_find key).mp hc
  rcases m.find_cases key with ⟨h1, _⟩ | ⟨h1, h2, h3⟩
  · exact absurd (by rw [h1, cend_eq]) hne
  · exact ⟨hne, m.find key, rfl, h1, h2, h3, rfl⟩

/-- C7: iterating a constructed container from begin to end yields exactly
the N supplied pairs in construction order. -/
theorem C7_iteration {N : Nat} {K V : Type} [Inhabited K] [Inhabited V]
    (el : List (K × V)) (m : hash_map N K V)
    (hm : construct N el = some m) :
    m.toList = el ∧ m.toList.length = N := by
  have hdata : m.data = el := by
    rw [construct] at hm
    by_cases h : 0 < N ∧ el.length = N
    · rw [dif_pos h] at hm
      cases hm
      rfl
    · rw [dif_neg h] at hm
      exact Option.noConfusion hm
  have hiter := m.iterFrom_eq_drop m.cend 0 (by omega)
  rw [toList, cbegin, hiter, List.drop_zero, hdata]
  exact ⟨rfl, by rw [← hdata]; exact m.size_inv⟩

/-- C8: a validly constructed container has size exactly N, a positive
number, and empty returns false. -/
theorem C8_size_empty {N : Nat} {K V : Type}
    (el : List (K × V)) (m : hash_map N K V)
    (hm : construct N el = some m) :
    m.size = N ∧ m.empty = false ∧ 1 ≤ N := by
  refine ⟨m.size_inv, rfl, ?_⟩
  rw [construct] at hm
  by_cases h : 0 < N ∧ el.length = N
  · omega
  · rw [dif_neg h] at hm
    exact Option.noConfusion hm

/-- C9: lookups terminate within the claimed bounds: the scan over the
full index range makes at most N key comparisons, and the string
comparison makes at most one comparison per character of its left
argument plus one. -/
theorem C9_lookup_bounded {N : Nat} {K V : Type} [BEq K] [Inhabited K] [Inhabited V] :
    (∀ (m : hash_map N K V) (key : K), m.searchCount key 0 N ≤ N) ∧
    (∀ a b : List Char, equalCStrSteps a b ≤ a.length + 1) := by
  constructor
  · intro m key
    have h := m.searchCount_le_width key N 0 N (by omega)
    simpa using h
  · exact equalCStrSteps_le

/-- C10: with duplicate keys present, find returns the leftmost matching
index, and contains, at and operator[] are determined by that entry. -/
theorem C10_duplicate_first_wins {N : Nat} {K V : Type} [BEq K] [Inhabited K] [Inhabited V]
    (m : hash_map N K V) (key : K) (i : Nat) (hi : i < N)
    (hmatch : ((m.data.getD i default).1 == key) = true)
    (hfirst : ∀ j, j < i → ((m.data.getD j default).1 == key) = false) :
    m.find key = i ∧ m.contains key = true ∧
    m.at' key = (true, (m.data.getD i default).2) ∧
    m.opIndex key = (m.data.getD i default).2 := by
  have hf := m.find_eq_of_first key i hi hmatch hfirst
  have hne : m.find key ≠ m.cend := by rw [hf, cend_eq]; omega
  refine ⟨hf, (m.contains_iff_find key).mpr hne, ?_, ?_⟩
  · have hne' : i ≠ m.cend := by rw [cend_eq]; omega
    simp [at', hf, hne']
  · rw [opIndex, hf]

/-- Concrete instance of the checked lookup theorem on a present key. -/
theorem C2_at_checked_lookup_witness :
    ∃ i, i < 2 ∧ ((exampleMap.data.getD i default).1 == 1) = true ∧
      (∀ j, j < i → ((exampleMap.data.getD j default).1 == 1) = false) ∧
      exampleMap.at' 1 = (true, (exampleMap.data.getD i default).2) :=
  (C2_at_checked_lookup exampleMap 1).1 ⟨0, by decide, by decide⟩

/-- Concrete instance of the contains and find agreement theorem. -/
theorem C3_contains_iff_witness :
    exampleMap.contains 1 = true ↔ exampleMap.find 1 ≠ exampleMap.cend :=
  (C3_contains_iff exampleMap 1).1

/-- Concrete instance of the string equality theorem. -/
theorem C4_equal_strings_witness :
    cstrWF key1str ∧ (equalCStr key1str key1str = true ↔ key1str = key1str) :=
  ⟨by decide, C4_equal_strings key1str key1str (by decide) (by decide)⟩

/-- Concrete instance of the construction theorem: one pair supplied for a
declared size of two is rejected. -/
theorem C5_construct_checks_witness :
    construct 2 [((1 : Nat), (10 : Nat))] = (none : Option (hash_map 2 Nat Nat)) :=
  (C5_construct_checks 2 [(1, 10)]).1.mpr (Or.inr (by decide))

/-- Concrete instance of the unchecked access theorem on a present key. -/
theorem C6_opIndex_unchecked_witness :
    exampleMap.find 2 ≠ exampleMap.cend ∧
    (∃ i, exampleMap.find 2 = i ∧ i < 2 ∧
      ((exampleMap.data.getD i default).1 == 2) = true ∧
      (∀ j, j < i → ((exampleMap.data.getD j default).1 == 2) = false) ∧
      exampleMap.opIndex 2 = (exampleMap.data.getD i default).2) :=
  C6_opIndex_unchecked exampleMap 2
    (by simp [hash_map.contains, hash_map.search, hash_map.cend, exampleMap])

/-- Concrete instance of the iteration theorem. -/
theorem C7_iteration_witness :
    exampleMap.toList = [(1, 10), (2, 20)] ∧ exampleMap.toList.length = 2 :=
  C7_iteration [(1, 10), (2, 20)] exampleMap rfl

/-- Concrete instance of the size and empty theorem. -/
theorem C8_size_empty_witness :
    exampleMap.size = 2 ∧ exampleMap.empty = false ∧ 1 ≤ 2 :=
  C8_size_empty [(1, 10), (2, 20)] exampleMap rfl

/-- Concrete instance of the duplicate key theorem: the map with key 1
stored twice answers every lookup from its first occurrence. -/
theorem C10_duplicate_first_wins_witness :
    dupMap.find 1 = 0 ∧ dupMap.contains 1 = true ∧
    dupMap.at' 1 = (true, (dupMap.data.getD 0 default).2) ∧
    dupMap.opIndex 1 = (dupMap.data.getD 0 default).2 :=
  C10_duplicate_first_wins dupMap 1 0 (by decide) (by decide)
    (fun j hj => absurd hj (Nat.not_lt_zero j))

end Burda
